import Mathlib

/-!
# Verification of the PageRank ranking engine (`src/pagerank.py`)

A shallow embedding of the core functions of `pagerank.py`:
`normalize`, `transition_model`, `sample_pagerank` and `iterate_pagerank`.

Modelling choices:
* Python `dict`s (insertion ordered, unique keys) become association lists
  `List (Page × _)`; uniqueness of keys is an explicit `Nodup` hypothesis
  where a proof needs it.
* Python floats become `ℚ` (exact arithmetic).
* Python exceptions (`KeyError` on a missing dict key, `ZeroDivisionError`
  on division by zero, `ValueError` of `randrange` on an empty range)
  become `Option`: the embedded function returns `none` exactly where the
  Python function raises.
* The ambient random source (`random.uniform(0, 1)` draws and the
  `random.randrange` start index) becomes explicit parameters: a stream
  `us : ℕ → ℚ` of draws and a start index `idx : ℕ`.
* The unbounded `while True` loop of `iterate_pagerank` becomes a
  fuel-indexed loop that returns `none` when the fuel runs out.
-/

namespace PageRank

abbrev Page := String

/-- A corpus: the Python `dict` mapping each page to the list of its
outbound links, as an association list in dict order. -/
abbrev Corpus := List (Page × List Page)

/-- First-match association-list lookup: the Python `d[k]` access,
`none` for a `KeyError`. -/
def lookupD {β : Type} (a : Page) : List (Page × β) → Option β
  | [] => none
  | (k, v) :: rest => if k = a then some v else lookupD a rest

/-- The key list of an association list, in order (`dict` iteration order). -/
def keysOf {β : Type} (l : List (Page × β)) : List Page :=
  l.map Prod.fst

/-- The sum of the values of an association list (`sum(d.values())`). -/
def vsum (l : List (Page × ℚ)) : ℚ :=
  (l.map Prod.snd).sum

/-- `normalize` (pagerank.py lines 51-56): divides every weight by the total
and scales by 100.  `none` models the `ZeroDivisionError` of the first
division when the total weight is zero, which requires at least one entry:
on the empty mapping the loop body never runs and the empty mapping is
returned without error. -/
def normalize (d : List (Page × ℚ)) : Option (List (Page × ℚ)) :=
  let total := vsum d
  if total = 0 ∧ d ≠ [] then none
  else some (d.map fun kv => (kv.1, kv.2 / total * 100))

/-- `transition_model` (pagerank.py lines 58-82).  `none` models the
`KeyError` when `page` is not a key of `corpus` (which also covers the
empty corpus, since the `corpus[page]` access on line 69 raises before the
division by `len(corpus)` could). -/
def transition_model (corpus : Corpus) (page : Page) (damping_factor : ℚ) :
    Option (List (Page × ℚ)) :=
  match lookupD page corpus with
  | none => none
  | some pages =>
    let corpus_total_pages_count : ℚ := corpus.length
    let random_transition_probabilities := 1 - damping_factor
    let random_transition_probability :=
      random_transition_probabilities / corpus_total_pages_count
    let current_page_links := pages.length
    let free_probabilities := 1 - random_transition_probabilities
    let rank_per_page : ℚ :=
      if current_page_links > 0 then free_probabilities / current_page_links else 0
    some (corpus.map fun kv =>
      (kv.1, random_transition_probability +
        if kv.1 ∈ pages then rank_per_page else 0))

/-- The cumulative-probability scan of `sample_pagerank` (lines 103-108):
subtract each page's probability from `rnd` in turn; return the first page
at which `rnd` goes non-positive, `none` when the loop exhausts the dict
without selecting (then no counter is incremented and the current page is
kept). -/
def select_scan (rnd : ℚ) : List (Page × ℚ) → Option Page
  | [] => none
  | (k, p) :: rest => if rnd - p ≤ 0 then some k else select_scan (rnd - p) rest

/-- `samples[key] += 1`: increment the value stored at `key` (first match). -/
def incr (key : Page) : List (Page × ℚ) → List (Page × ℚ)
  | [] => []
  | (k, v) :: rest =>
    if k = key then (k, v + 1) :: rest else (k, v) :: incr key rest

/-- The sampling loop of `sample_pagerank` (lines 100-108): `m` iterations
remain, `i` is the index into the stream of uniform draws, `page` the
current page, `samples` the visit counters.  Returns the final current page
and counters. -/
def sample_loop (corpus : Corpus) (damping_factor : ℚ) (us : ℕ → ℚ) :
    ℕ → ℕ → Page → List (Page × ℚ) → Option (Page × List (Page × ℚ))
  | 0, _, page, samples => some (page, samples)
  | m + 1, i, page, samples =>
    match transition_model corpus page damping_factor with
    | none => none
    | some result =>
      match select_scan (us i) result with
      | none => sample_loop corpus damping_factor us m (i + 1) page samples
      | some key =>
        sample_loop corpus damping_factor us m (i + 1) key (incr key samples)

/-- `sample_pagerank` (pagerank.py lines 85-110), with the random source
made explicit: `idx` is the result of `random.randrange(0, len(corpus))`
and `us i` the `i`-th `random.uniform(0, 1)` draw.  `none` models the
`ValueError` of `randrange` on an empty corpus and the `ZeroDivisionError`
of the final `normalize` on an all-zero counter dict. -/
def sample_pagerank (corpus : Corpus) (damping_factor : ℚ) (n : ℕ)
    (us : ℕ → ℚ) (idx : ℕ) : Option (List (Page × ℚ)) :=
  let pages := keysOf corpus
  match pages.get? idx with
  | none => none
  | some page =>
    let samples := pages.map fun p => (p, (0 : ℚ))
    match sample_loop corpus damping_factor us n 0 page samples with
    | none => none
    | some (_, final_samples) => normalize final_samples

/-- `inbound_links = {page: set() for page in corpus}` (line 128). -/
def inbound_init (corpus : Corpus) : List (Page × List Page) :=
  corpus.map fun kv => (kv.1, ([] : List Page))

/-- One `inbound_links[link].add(page)` guarded by `if link in inbound_links`
(lines 131-132): entries whose key is `link` gain `page`; when no entry has
key `link` the map is unchanged (the link is silently dropped). -/
def inbound_add (link page : Page) (ib : List (Page × List Page)) :
    List (Page × List Page) :=
  ib.map fun kv => if kv.1 = link then (kv.1, kv.2.insert page) else kv

/-- The inbound-link index built by `iterate_pagerank` (lines 128-132). -/
def inbound_links (corpus : Corpus) : List (Page × List Page) :=
  corpus.foldl
    (fun ib kv => kv.2.foldl (fun ib2 link => inbound_add link kv.1 ib2) ib)
    (inbound_init corpus)

/-- One page's candidate rank in a round (lines 140-143):
`k + damping_factor * acc` where `acc` sums `ranks[q] / len(corpus[q])`
over the page's inbound set `inb`. -/
def candidate (corpus : Corpus) (damping_factor : ℚ)
    (ranks : List (Page × ℚ)) (inb : List Page) : ℚ :=
  let k := (1 - damping_factor) / (corpus.length : ℚ)
  k + damping_factor *
    (inb.map fun q =>
      (lookupD q ranks).getD 0 / (((lookupD q corpus).getD []).length : ℚ)).sum

/-- The `ranks_update` dict of one round (lines 138-148): the pages whose
candidate differs from their previous rank by more than the precision
0.001, paired with the candidate. -/
def ranks_update (corpus : Corpus) (damping_factor : ℚ)
    (inb : List (Page × List Page)) (ranks : List (Page × ℚ)) :
    List (Page × ℚ) :=
  corpus.filterMap fun kv =>
    let update := candidate corpus damping_factor ranks ((lookupD kv.1 inb).getD [])
    let prev := (lookupD kv.1 ranks).getD 0
    if |prev - update| > 1 / 1000 then some (kv.1, update) else none

/-- `ranks[key] = v` for an existing key (first match), keeping dict order. -/
def setval (key : Page) (v : ℚ) : List (Page × ℚ) → List (Page × ℚ)
  | [] => []
  | (k, w) :: rest =>
    if k = key then (k, v) :: rest else (k, w) :: setval key v rest

/-- `ranks.update(ranks_update)` (line 152). -/
def apply_updates (upd ranks : List (Page × ℚ)) : List (Page × ℚ) :=
  upd.foldl (fun r kv => setval kv.1 kv.2 r) ranks

/-- The `while True` loop of `iterate_pagerank` (lines 136-152), indexed by
fuel; `none` when the fuel runs out before a round commits no update. -/
def pagerank_loop (corpus : Corpus) (damping_factor : ℚ)
    (inb : List (Page × List Page)) :
    ℕ → List (Page × ℚ) → Option (List (Page × ℚ))
  | 0, _ => none
  | f + 1, ranks =>
    let upd := ranks_update corpus damping_factor inb ranks
    if upd = [] then some ranks
    else pagerank_loop corpus damping_factor inb f (apply_updates upd ranks)

/-- `iterate_pagerank` (pagerank.py lines 113-154).  `none` models the
`ZeroDivisionError` of `1 / pages_count` on an empty corpus (and fuel
exhaustion of the unbounded loop). -/
def iterate_pagerank (corpus : Corpus) (damping_factor : ℚ) (fuel : ℕ) :
    Option (List (Page × ℚ)) :=
  if corpus.length = 0 then none
  else
    let initial : ℚ := 1 / (corpus.length : ℚ)
    let ranks := corpus.map fun kv => (kv.1, initial)
    match pagerank_loop corpus damping_factor (inbound_links corpus) fuel ranks with
    | none => none
    | some r => normalize r

/-! ## Association-list lemmas -/

theorem lookupD_nil {β : Type} (a : Page) : lookupD a ([] : List (Page × β)) = none :=
  rfl

theorem lookupD_cons {β : Type} (a k : Page) (v : β) (rest : List (Page × β)) :
    lookupD a ((k, v) :: rest) = if k = a then some v else lookupD a rest :=
  rfl

theorem lookupD_eq_none {β : Type} {a : Page} {l : List (Page × β)} :
    lookupD a l = none ↔ a ∉ keysOf l := by
  induction l with
  | nil => simp [lookupD, keysOf]
  | cons kv rest ih =>
    obtain ⟨k, v⟩ := kv
    by_cases hk : k = a
    · subst hk
      simp [lookupD, keysOf]
    · have hk' : a ≠ k := fun h => hk h.symm
      simp only [lookupD, if_neg hk, ih]
      constructor
      · intro h hmem
        rcases List.mem_cons.mp hmem with h1 | h1
        · exact hk' h1
        · exact h h1
      · intro h hmem
        exact h (List.mem_cons_of_mem _ hmem)

theorem mem_keysOf_of_lookupD {β : Type} {a : Page} {b : β} {l : List (Page × β)}
    (h : lookupD a l = some b) : a ∈ keysOf l := by
  by_contra hmem
  rw [← lookupD_eq_none] at hmem
  simp [hmem] at h

theorem lookupD_map_val {β γ : Type} (h : Page → β → γ) (a : Page)
    (l : List (Page × β)) :
    lookupD a (l.map fun kv => (kv.1, h kv.1 kv.2)) = (lookupD a l).map (h a) := by
  induction l with
  | nil => simp [lookupD]
  | cons kv rest ih =>
    obtain ⟨k, v⟩ := kv
    by_cases hk : k = a <;> simp [lookupD, hk, ih]

theorem lookupD_map_fn {β : Type} (f : Page → β) {q : Page}
    {l : List (Page × List Page)} (hq : q ∈ keysOf l) :
    lookupD q (l.map fun kv => (kv.1, f kv.1)) = some (f q) := by
  induction l with
  | nil => simp [keysOf] at hq
  | cons kv rest ih =>
    obtain ⟨k, v⟩ := kv
    by_cases hk : k = q
    · subst hk; simp [lookupD]
    · have hq' : q ∈ keysOf rest := by
        rcases List.mem_cons.mp hq with h | h
        · exact absurd h.symm hk
        · exact h
      simpa [lookupD, hk] using ih hq'

theorem keysOf_map_val {β γ : Type} (h : Page → β → γ) (l : List (Page × β)) :
    keysOf (l.map fun kv => (kv.1, h kv.1 kv.2)) = keysOf l := by
  simp [keysOf, List.map_map]

theorem lookupD_of_mem {β : Type} {l : List (Page × β)} {kv : Page × β}
    (hnd : (keysOf l).Nodup) (hmem : kv ∈ l) : lookupD kv.1 l = some kv.2 := by
  induction l with
  | nil => simp at hmem
  | cons hd rest ih =>
    obtain ⟨k, v⟩ := hd
    simp only [keysOf, List.map_cons, List.nodup_cons] at hnd
    rcases List.mem_cons.mp hmem with h | h
    · subst h; simp [lookupD]
    · have hk : k ≠ kv.1 := by
        intro hkk
        exact hnd.1 (hkk ▸ (List.mem_map_of_mem Prod.fst h))
      simpa [lookupD, hk] using ih hnd.2 h

theorem vsum_nil : vsum [] = 0 := rfl

theorem vsum_cons (kv : Page × ℚ) (l : List (Page × ℚ)) :
    vsum (kv :: l) = kv.2 + vsum l := by
  simp [vsum]

/-! ## `transition_model` lemmas -/

/-- The explicit shape of a successful `transition_model` call, with the
damped per-link share written as `d / |links|`. -/
theorem transition_model_eq {corpus : Corpus} {page : Page} {pages : List Page}
    (d : ℚ) (hp : lookupD page corpus = some pages) :
    transition_model corpus page d = some (corpus.map fun kv =>
      (kv.1, (1 - d) / (corpus.length : ℚ) +
        if kv.1 ∈ pages then
          (if 0 < pages.length then d / (pages.length : ℚ) else 0)
        else 0)) := by
  have hd : 1 - (1 - d) = d := by ring
  simp [transition_model, hp, hd]

theorem sum_const_add_ite (l : List (Page × List Page)) (a b : ℚ)
    (pages : List Page) :
    (l.map fun kv => a + if kv.1 ∈ pages then b else 0).sum
      = l.length * a + b * (l.countP fun kv => decide (kv.1 ∈ pages)) := by
  induction l with
  | nil => simp
  | cons kv rest ih =>
    by_cases h : kv.1 ∈ pages <;>
      simp [List.countP_cons, h, ih] <;> push_cast <;> ring

theorem countP_mem_eq_length {K S : List Page} (hK : K.Nodup) (hS : S.Nodup)
    (hsub : ∀ x ∈ S, x ∈ K) :
    (K.countP fun x => decide (x ∈ S)) = S.length := by
  rw [List.countP_eq_length_filter]
  have hfil : (K.filter fun x => decide (x ∈ S)).Nodup := hK.filter _
  have hfs : (K.filter fun x => decide (x ∈ S)).toFinset = S.toFinset := by
    ext x
    simp only [List.mem_toFinset, List.mem_filter, decide_eq_true_eq]
    exact ⟨fun h => h.2, fun h => ⟨hsub x h, h⟩⟩
  calc (K.filter fun x => decide (x ∈ S)).length
      = (K.filter fun x => decide (x ∈ S)).toFinset.card :=
        (List.toFinset_card_of_nodup hfil).symm
    _ = S.toFinset.card := by rw [hfs]
    _ = S.length := List.toFinset_card_of_nodup hS

/-- The total probability mass of a `transition_model` distribution:
`1` when the page has outbound links, `1 - d` when it has none. -/
theorem vsum_transition {corpus : Corpus} {page : Page} {pages : List Page}
    (d : ℚ) (hp : lookupD page corpus = some pages)
    (hK : (keysOf corpus).Nodup) (hS : pages.Nodup)
    (hsub : ∀ x ∈ pages, x ∈ keysOf corpus) :
    vsum ((transition_model corpus page d).getD [])
      = if pages = [] then 1 - d else 1 := by
  rw [transition_model_eq d hp]
  have hmem : page ∈ keysOf corpus := mem_keysOf_of_lookupD hp
  have hlen : corpus ≠ [] := by
    intro h; subst h; simp [keysOf] at hmem
  have hlen0 : corpus.length ≠ 0 := by
    simpa [List.length_eq_zero] using hlen
  have hN : (corpus.length : ℚ) ≠ 0 := Nat.cast_ne_zero.mpr hlen0
  have hcount : (corpus.countP fun kv => decide (kv.1 ∈ pages)) = pages.length := by
    have h1 := countP_mem_eq_length hK hS hsub
    rw [← h1, keysOf, List.countP_map]
    rfl
  show ((corpus.map fun kv =>
      (kv.1, (1 - d) / (corpus.length : ℚ) +
        if kv.1 ∈ pages then
          (if 0 < pages.length then d / (pages.length : ℚ) else 0)
        else 0)).map Prod.snd).sum = _
  rw [List.map_map]
  show (corpus.map fun kv => (1 - d) / (corpus.length : ℚ) +
      if kv.1 ∈ pages then
        (if 0 < pages.length then d / (pages.length : ℚ) else 0)
      else 0).sum = _
  rw [sum_const_add_ite, hcount]
  by_cases hnil : pages = []
  · subst hnil
    simp only [List.length_nil, lt_irrefl, if_false, List.not_mem_nil, if_neg,
      Nat.cast_zero, mul_zero, add_zero, if_pos]
    field_simp
  · have hpos : 0 < pages.length := List.length_pos.mpr hnil
    have hL : (pages.length : ℚ) ≠ 0 := by positivity
    simp only [if_neg hnil, if_pos hpos]
    field_simp

theorem keysOf_map_fn {β : Type} (f : Page → β) (l : List (Page × List Page)) :
    keysOf (l.map fun kv => (kv.1, f kv.1)) = keysOf l := by
  simp [keysOf, List.map_map]

theorem vsum_map_div_mul (w : List (Page × ℚ)) (T c : ℚ) :
    vsum (w.map fun kv => (kv.1, kv.2 / T * c)) = vsum w / T * c := by
  induction w with
  | nil => simp [vsum]
  | cons kv rest ih =>
    rw [List.map_cons, vsum_cons, ih, vsum_cons]
    ring

/-! ## Claim theorems -/

/-- **C1** counterexample: on the corpus `{A: {}}` with page `A` and damping
factor `1/2`, the distribution returned by `transition_model` has values
summing to `1/2`, not `1` — the claim fails for a page with zero outbound
links. -/
theorem C1_counterexample :
    transition_model [("A", [])] "A" (1 / 2) = some [("A", 1 / 2)] ∧
    vsum [("A", (1 / 2 : ℚ))] ≠ 1 := by
  constructor
  · norm_num [transition_model, lookupD]
  · norm_num [vsum]

/-- **C1** (amended): for every non-empty corpus with distinct keys, page of
the corpus whose link set is duplicate-free and inside the corpus, and
damping factor in `[0,1]`, the values of the distribution returned by
`transition_model` sum to `1` when the page has at least one outbound link,
and to `1 - damping_factor` when it has zero outbound links. -/
theorem C1_transition_sum (corpus : Corpus) (page : Page) (d : ℚ)
    (pages : List Page)
    (hne : corpus ≠ []) (hp : lookupD page corpus = some pages)
    (hK : (keysOf corpus).Nodup) (hS : pages.Nodup)
    (hsub : ∀ x ∈ pages, x ∈ keysOf corpus)
    (hd0 : 0 ≤ d) (hd1 : d ≤ 1) :
    vsum ((transition_model corpus page d).getD [])
      = if pages = [] then 1 - d else 1 :=
  vsum_transition d hp hK hS hsub

/-- Witness for `C1_transition_sum` at a concrete corpus. -/
theorem C1_transition_sum_witness :
    ([("A", ["B"]), ("B", ["A"])] : Corpus) ≠ [] ∧
    lookupD "A" ([("A", ["B"]), ("B", ["A"])] : Corpus) = some ["B"] ∧
    (keysOf ([("A", ["B"]), ("B", ["A"])] : Corpus)).Nodup ∧
    (["B"] : List Page).Nodup ∧
    (∀ x ∈ (["B"] : List Page), x ∈ keysOf ([("A", ["B"]), ("B", ["A"])] : Corpus)) ∧
    (0 : ℚ) ≤ 17 / 20 ∧ (17 / 20 : ℚ) ≤ 1 ∧
    vsum ((transition_model [("A", ["B"]), ("B", ["A"])] "A" (17 / 20)).getD [])
      = if (["B"] : List Page) = [] then 1 - 17 / 20 else 1 := by
  have hne : ([("A", ["B"]), ("B", ["A"])] : Corpus) ≠ [] := by simp
  have hp : lookupD "A" ([("A", ["B"]), ("B", ["A"])] : Corpus) = some ["B"] := rfl
  have hK : (keysOf ([("A", ["B"]), ("B", ["A"])] : Corpus)).Nodup := by decide
  have hS : (["B"] : List Page).Nodup := by decide
  have hsub : ∀ x ∈ (["B"] : List Page),
      x ∈ keysOf ([("A", ["B"]), ("B", ["A"])] : Corpus) := by decide
  have hd0 : (0 : ℚ) ≤ 17 / 20 := by norm_num
  have hd1 : (17 / 20 : ℚ) ≤ 1 := by norm_num
  exact ⟨hne, hp, hK, hS, hsub, hd0, hd1,
    C1_transition_sum _ _ _ _ hne hp hK hS hsub hd0 hd1⟩

/-- **C2** (confirmed): for every non-empty corpus, page `page` of the
corpus, and damping factor in `[0,1]`, `transition_model` returns a
distribution whose key set is the full corpus key set and which assigns to
each corpus key `q` the value `(1-d)/N + d/|links(page)|` if
`q ∈ links(page)` and `(1-d)/N` otherwise. -/
theorem C2_transition_formula (corpus : Corpus) (page q : Page) (d : ℚ)
    (pages : List Page)
    (hne : corpus ≠ []) (hp : lookupD page corpus = some pages)
    (hq : q ∈ keysOf corpus) (hd0 : 0 ≤ d) (hd1 : d ≤ 1) :
    ∃ t, transition_model corpus page d = some t ∧
      keysOf t = keysOf corpus ∧
      lookupD q t = some ((1 - d) / (corpus.length : ℚ) +
        if q ∈ pages then d / (pages.length : ℚ) else 0) := by
  refine ⟨_, transition_model_eq d hp, ?_, ?_⟩
  · exact keysOf_map_fn (fun k => (1 - d) / (corpus.length : ℚ) +
      if k ∈ pages then (if 0 < pages.length then d / (pages.length : ℚ) else 0)
      else 0) corpus
  refine (lookupD_map_fn (fun k => (1 - d) / (corpus.length : ℚ) +
      if k ∈ pages then (if 0 < pages.length then d / (pages.length : ℚ) else 0)
      else 0) hq).trans ?_
  congr 1
  by_cases hmem : q ∈ pages
  · have hpos : 0 < pages.length := List.length_pos.mpr (List.ne_nil_of_mem hmem)
    simp [hmem, hpos]
  · simp [hmem]

/-- Witness for `C2_transition_formula` at a concrete corpus. -/
theorem C2_transition_formula_witness :
    ([("A", ["B"]), ("B", ["A"])] : Corpus) ≠ [] ∧
    lookupD "A" ([("A", ["B"]), ("B", ["A"])] : Corpus) = some ["B"] ∧
    "B" ∈ keysOf ([("A", ["B"]), ("B", ["A"])] : Corpus) ∧
    (0 : ℚ) ≤ 17 / 20 ∧ (17 / 20 : ℚ) ≤ 1 ∧
    (∃ t, transition_model [("A", ["B"]), ("B", ["A"])] "A" (17 / 20) = some t ∧
      keysOf t = keysOf ([("A", ["B"]), ("B", ["A"])] : Corpus) ∧
      lookupD "B" t = some ((1 - 17 / 20) / (([("A", ["B"]), ("B", ["A"])] : Corpus).length : ℚ) +
        if "B" ∈ (["B"] : List Page) then (17 / 20) / ((["B"] : List Page).length : ℚ)
        else 0)) := by
  have hne : ([("A", ["B"]), ("B", ["A"])] : Corpus) ≠ [] := by simp
  have hp : lookupD "A" ([("A", ["B"]), ("B", ["A"])] : Corpus) = some ["B"] := rfl
  have hq : "B" ∈ keysOf ([("A", ["B"]), ("B", ["A"])] : Corpus) := by decide
  have hd0 : (0 : ℚ) ≤ 17 / 20 := by norm_num
  have hd1 : (17 / 20 : ℚ) ≤ 1 := by norm_num
  exact ⟨hne, hp, hq, hd0, hd1,
    C2_transition_formula _ _ _ _ _ hne hp hq hd0 hd1⟩

/-- **C7** (confirmed): for every input with positive total weight,
`normalize` returns the mapping with the same key set whose entry at each
key is `(value / total) * 100`, and whose values sum to the target total
`100`. -/
theorem C7_normalize (w : List (Page × ℚ)) (hpos : 0 < vsum w) :
    ∃ r, normalize w = some r ∧
      r = w.map (fun kv => (kv.1, kv.2 / vsum w * 100)) ∧
      keysOf r = keysOf w ∧ vsum r = 100 := by
  have hne : vsum w ≠ 0 := ne_of_gt hpos
  refine ⟨w.map (fun kv => (kv.1, kv.2 / vsum w * 100)), ?_, rfl, ?_, ?_⟩
  · simp [normalize, hne]
  · exact keysOf_map_val (fun _ v => v / vsum w * 100) w
  · rw [vsum_map_div_mul, div_self hne, one_mul]

/-- Witness for `C7_normalize` at a concrete weighting. -/
theorem C7_normalize_witness :
    0 < vsum [("A", (3 : ℚ)), ("B", 1)] ∧
    (∃ r, normalize [("A", (3 : ℚ)), ("B", 1)] = some r ∧
      r = ([("A", (3 : ℚ)), ("B", 1)] : List (Page × ℚ)).map
        (fun kv => (kv.1, kv.2 / vsum [("A", (3 : ℚ)), ("B", 1)] * 100)) ∧
      keysOf r = keysOf ([("A", (3 : ℚ)), ("B", 1)] : List (Page × ℚ)) ∧
      vsum r = 100) := by
  have hpos : 0 < vsum [("A", (3 : ℚ)), ("B", 1)] := by
    simp [vsum]
    norm_num
  exact ⟨hpos, C7_normalize _ hpos⟩

/-! ## Inbound-link index lemmas -/

/-- The edge list of a corpus: one pair `(source, target)` per link, in the
order the nested loops of lines 129-132 visit them. -/
def edges (corpus : Corpus) : List (Page × Page) :=
  corpus.flatMap fun kv => kv.2.map fun link => (kv.1, link)

theorem foldl_inbound_aux (corpus : Corpus) :
    ∀ init : List (Page × List Page),
      corpus.foldl
          (fun ib kv => kv.2.foldl (fun ib2 link => inbound_add link kv.1 ib2) ib) init
        = (edges corpus).foldl (fun ib e => inbound_add e.2 e.1 ib) init := by
  induction corpus with
  | nil => intro init; rfl
  | cons kv rest ih =>
    intro init
    rw [List.foldl_cons,
      show edges (kv :: rest) = (kv.2.map fun l => (kv.1, l)) ++ edges rest from rfl,
      List.foldl_append, List.foldl_map]
    exact ih _

theorem inbound_links_eq_edges (corpus : Corpus) :
    inbound_links corpus
      = (edges corpus).foldl (fun ib e => inbound_add e.2 e.1 ib)
          (inbound_init corpus) :=
  foldl_inbound_aux corpus (inbound_init corpus)

theorem inbound_add_eq_map_val (link page : Page) (ib : List (Page × List Page)) :
    inbound_add link page ib
      = ib.map (fun kv => (kv.1, if kv.1 = link then kv.2.insert page else kv.2)) := by
  unfold inbound_add
  apply List.map_congr_left
  intro kv _
  by_cases h : kv.1 = link <;> simp [h]

theorem lookupD_inbound_add (p link page : Page) (ib : List (Page × List Page)) :
    lookupD p (inbound_add link page ib)
      = (lookupD p ib).map (fun s => if p = link then s.insert page else s) := by
  rw [inbound_add_eq_map_val,
    lookupD_map_val (fun k s => if k = link then s.insert page else s) p ib]

theorem lookupD_foldl_add (es : List (Page × Page)) :
    ∀ (ib : List (Page × List Page)) (p : Page),
      lookupD p (es.foldl (fun ib e => inbound_add e.2 e.1 ib) ib)
        = (lookupD p ib).map
            (fun s => es.foldl (fun s2 e => if p = e.2 then s2.insert e.1 else s2) s) := by
  induction es with
  | nil =>
    intro ib p
    cases h : lookupD p ib <;> simp [h]
  | cons e rest ih =>
    intro ib p
    rw [List.foldl_cons, ih, lookupD_inbound_add]
    cases h : lookupD p ib <;> simp [h]

theorem lookupD_inbound_init (corpus : Corpus) (p : Page) :
    lookupD p (inbound_init corpus)
      = (lookupD p corpus).map (fun _ => ([] : List Page)) := by
  unfold inbound_init
  exact lookupD_map_val (fun _ _ => ([] : List Page)) p corpus

theorem lookupD_inbound_links (corpus : Corpus) (p : Page) :
    lookupD p (inbound_links corpus)
      = (lookupD p corpus).map (fun _ =>
          (edges corpus).foldl
            (fun s2 e => if p = e.2 then s2.insert e.1 else s2) []) := by
  rw [inbound_links_eq_edges, lookupD_foldl_add, lookupD_inbound_init]
  cases lookupD p corpus <;> simp

theorem mem_foldl_insert (es : List (Page × Page)) (p q : Page) :
    ∀ s : List Page,
      (q ∈ es.foldl (fun s2 e => if p = e.2 then s2.insert e.1 else s2) s
        ↔ q ∈ s ∨ ∃ e ∈ es, p = e.2 ∧ q = e.1) := by
  induction es with
  | nil => intro s; simp
  | cons e rest ih =>
    intro s
    rw [List.foldl_cons, ih]
    by_cases h : p = e.2
    · simp only [if_pos h, List.mem_insert_iff, List.mem_cons]
      constructor
      · rintro (⟨h1 | h1⟩ | ⟨f, hf, hf2, hf3⟩)
        · exact Or.inr ⟨e, Or.inl rfl, h, h1⟩
        · exact Or.inl h1
        · exact Or.inr ⟨f, Or.inr hf, hf2, hf3⟩
      · rintro (h1 | ⟨f, hf | hf, hf2, hf3⟩)
        · exact Or.inl (Or.inr h1)
        · exact Or.inl (Or.inl (hf ▸ hf3))
        · exact Or.inr ⟨f, hf, hf2, hf3⟩
    · simp only [if_neg h, List.mem_cons]
      constructor
      · rintro (h1 | ⟨f, hf, hf2, hf3⟩)
        · exact Or.inl h1
        · exact Or.inr ⟨f, Or.inr hf, hf2, hf3⟩
      · rintro (h1 | ⟨f, hf | hf, hf2, hf3⟩)
        · exact Or.inl h1
        · exact absurd (hf ▸ hf2) h
        · exact Or.inr ⟨f, hf, hf2, hf3⟩

theorem nodup_foldl_insert (es : List (Page × Page)) (p : Page) :
    ∀ s : List Page, s.Nodup →
      (es.foldl (fun s2 e => if p = e.2 then s2.insert e.1 else s2) s).Nodup := by
  induction es with
  | nil => intro s hs; exact hs
  | cons e rest ih =>
    intro s hs
    rw [List.foldl_cons]
    apply ih
    by_cases h : p = e.2
    · rw [if_pos h]; exact hs.insert
    · rwa [if_neg h]

theorem mem_edges (corpus : Corpus) (q p : Page) :
    (q, p) ∈ edges corpus ↔ ∃ kv ∈ corpus, kv.1 = q ∧ p ∈ kv.2 := by
  unfold edges
  constructor
  · intro h
    rcases List.mem_flatMap.mp h with ⟨kv, hkv, hmem⟩
    rcases List.mem_map.mp hmem with ⟨l, hl, he⟩
    injection he with h1 h2
    subst h1
    subst h2
    exact ⟨kv, hkv, rfl, hl⟩
  · rintro ⟨kv, hkv, h1, h2⟩
    exact List.mem_flatMap.mpr ⟨kv, hkv, List.mem_map.mpr ⟨p, h2, by rw [h1]⟩⟩

/-- Membership in a page's inbound set: exactly the corpus entries that link
to it.  Holds for every corpus, even one violating the links-are-keys
invariant. -/
theorem mem_inbound_links {corpus : Corpus} {p : Page} {inb : List Page}
    (h : lookupD p (inbound_links corpus) = some inb) (q : Page) :
    q ∈ inb ↔ ∃ kv ∈ corpus, kv.1 = q ∧ p ∈ kv.2 := by
  rw [lookupD_inbound_links] at h
  cases hc : lookupD p corpus with
  | none => rw [hc] at h; simp at h
  | some v =>
    rw [hc] at h
    simp only [Option.map_some'] at h
    rw [← Option.some_inj.mp h, mem_foldl_insert]
    simp only [List.not_mem_nil, false_or]
    constructor
    · rintro ⟨e, he, h1, h2⟩
      have heq : e = (q, p) := Prod.ext_iff.mpr ⟨h2.symm, h1.symm⟩
      exact (mem_edges corpus q p).mp (heq ▸ he)
    · intro hex
      exact ⟨(q, p), (mem_edges corpus q p).mpr hex, rfl, rfl⟩

theorem nodup_inbound_links {corpus : Corpus} {p : Page} {inb : List Page}
    (h : lookupD p (inbound_links corpus) = some inb) : inb.Nodup := by
  rw [lookupD_inbound_links] at h
  cases hc : lookupD p corpus with
  | none => rw [hc] at h; simp at h
  | some v =>
    rw [hc] at h
    simp only [Option.map_some'] at h
    rw [← Option.some_inj.mp h]
    exact nodup_foldl_insert _ _ [] List.nodup_nil

theorem keysOf_inbound_add (link page : Page) (ib : List (Page × List Page)) :
    keysOf (inbound_add link page ib) = keysOf ib := by
  rw [inbound_add_eq_map_val]
  exact keysOf_map_val (fun k s => if k = link then s.insert page else s) ib

theorem keysOf_foldl_add (es : List (Page × Page)) :
    ∀ ib, keysOf (es.foldl (fun ib e => inbound_add e.2 e.1 ib) ib) = keysOf ib := by
  induction es with
  | nil => intro ib; rfl
  | cons e rest ih =>
    intro ib
    rw [List.foldl_cons, ih, keysOf_inbound_add]

theorem keysOf_inbound_links (corpus : Corpus) :
    keysOf (inbound_links corpus) = keysOf corpus := by
  rw [inbound_links_eq_edges, keysOf_foldl_add]
  exact keysOf_map_val (fun _ _ => ([] : List Page)) corpus

/-- **C10** (confirmed): for every corpus mapping — even one violating the
links-are-keys invariant — the inbound index has entries exactly for the
corpus keys; a target that is not a corpus key has no entry at all, and a
page's inbound set contains exactly the corpus entries that link to it, so
a dropped link contributes to no page's rank sum. -/
theorem C10_inbound_index (corpus : Corpus) (t : Page)
    (ht : t ∉ keysOf corpus) :
    keysOf (inbound_links corpus) = keysOf corpus ∧
    lookupD t (inbound_links corpus) = none ∧
    (∀ p inb q, lookupD p (inbound_links corpus) = some inb →
      (q ∈ inb ↔ ∃ kv ∈ corpus, kv.1 = q ∧ p ∈ kv.2)) := by
  refine ⟨keysOf_inbound_links corpus, ?_, ?_⟩
  · rw [lookupD_eq_none, keysOf_inbound_links]
    exact ht
  · intro p inb q h
    exact mem_inbound_links h q

/-- Witness for `C10_inbound_index` on a corpus that violates the
links-are-keys invariant (`A` links to `X`, which is not a key). -/
theorem C10_inbound_index_witness :
    "X" ∉ keysOf ([("A", ["X", "B"]), ("B", ["A"])] : Corpus) ∧
    (keysOf (inbound_links [("A", ["X", "B"]), ("B", ["A"])])
        = keysOf ([("A", ["X", "B"]), ("B", ["A"])] : Corpus) ∧
      lookupD "X" (inbound_links [("A", ["X", "B"]), ("B", ["A"])]) = none ∧
      (∀ p inb q,
        lookupD p (inbound_links [("A", ["X", "B"]), ("B", ["A"])]) = some inb →
        (q ∈ inb ↔ ∃ kv ∈ ([("A", ["X", "B"]), ("B", ["A"])] : Corpus),
          kv.1 = q ∧ p ∈ kv.2))) := by
  have ht : "X" ∉ keysOf ([("A", ["X", "B"]), ("B", ["A"])] : Corpus) := by decide
  exact ⟨ht, C10_inbound_index _ _ ht⟩

/-- **C8** counterexample: a damping factor of `2`, outside `[0,1)`, is not
rejected: `transition_model` on the valid corpus `{A: {}}` with page `A`
returns a result (the meaningless distribution `{A: -1}`) instead of
failing fast. -/
theorem C8_counterexample :
    transition_model [("A", [])] "A" 2 = some [("A", -1)] ∧ ¬ ((2 : ℚ) < 1) := by
  constructor
  · norm_num [transition_model, lookupD]
  · norm_num

/-- **C8** (amended): calls with an empty corpus or with a page not in the
corpus fail fast with no partial result (`transition_model`,
`sample_pagerank` and `iterate_pagerank` reject the call outright), but a
damping factor outside `[0,1)` is not rejected: `transition_model` on a
valid page returns a result for every damping factor. -/
theorem C8_fail_fast (corpus : Corpus) (page : Page) (d : ℚ) (n : ℕ)
    (us : ℕ → ℚ) (idx : ℕ) (fuel : ℕ) :
    (lookupD page corpus = none → transition_model corpus page d = none) ∧
    (corpus = [] → transition_model corpus page d = none ∧
      sample_pagerank corpus d n us idx = none ∧
      iterate_pagerank corpus d fuel = none) ∧
    (∀ pages, lookupD page corpus = some pages →
      (transition_model corpus page d).isSome) := by
  refine ⟨?_, ?_, ?_⟩
  · intro h
    simp [transition_model, h]
  · intro h
    subst h
    refine ⟨?_, ?_, ?_⟩
    · simp [transition_model, lookupD]
    · simp [sample_pagerank, keysOf]
    · simp [iterate_pagerank]
  · intro pages h
    rw [transition_model_eq d h]
    rfl

/-- Witness for `C8_fail_fast`: the empty corpus is rejected by all three
entry points, and a valid call is not rejected for the out-of-range damping
factor `2`. -/
theorem C8_fail_fast_witness :
    (transition_model [] "A" (17 / 20) = none ∧
      sample_pagerank [] (17 / 20) 5 (fun _ => 0) 0 = none ∧
      iterate_pagerank [] (17 / 20) 10 = none) ∧
    (transition_model [("A", [])] "A" 2).isSome := by
  constructor
  · exact (C8_fail_fast [] "A" (17 / 20) 5 (fun _ => 0) 0 10).2.1 rfl
  · exact (C8_fail_fast [("A", [])] "A" 2 5 (fun _ => 0) 0 10).2.2 [] rfl

/-! ## Loop lemmas for `iterate_pagerank` -/

theorem pagerank_loop_zero (corpus : Corpus) (d : ℚ)
    (inb : List (Page × List Page)) (ranks : List (Page × ℚ)) :
    pagerank_loop corpus d inb 0 ranks = none := rfl

theorem pagerank_loop_succ (corpus : Corpus) (d : ℚ)
    (inb : List (Page × List Page)) (f : ℕ) (ranks : List (Page × ℚ)) :
    pagerank_loop corpus d inb (f + 1) ranks
      = if ranks_update corpus d inb ranks = [] then some ranks
        else pagerank_loop corpus d inb f
          (apply_updates (ranks_update corpus d inb ranks) ranks) := rfl

theorem pagerank_loop_step_mono {corpus : Corpus} {d : ℚ}
    {inb : List (Page × List Page)} {f : ℕ} {ranks r : List (Page × ℚ)}
    (h : pagerank_loop corpus d inb f ranks = some r) :
    pagerank_loop corpus d inb (f + 1) ranks = some r := by
  induction f generalizing ranks with
  | zero => rw [pagerank_loop_zero] at h; exact absurd h (by simp)
  | succ f ih =>
    rw [pagerank_loop_succ] at h
    rw [pagerank_loop_succ]
    by_cases hu : ranks_update corpus d inb ranks = []
    · rwa [if_pos hu] at h ⊢
    · rw [if_neg hu] at h ⊢
      exact ih h

theorem pagerank_loop_mono {corpus : Corpus} {d : ℚ}
    {inb : List (Page × List Page)} {f g : ℕ} {ranks r : List (Page × ℚ)}
    (hfg : f ≤ g) (h : pagerank_loop corpus d inb f ranks = some r) :
    pagerank_loop corpus d inb g ranks = some r := by
  induction g with
  | zero =>
    have : f = 0 := Nat.le_zero.mp hfg
    rwa [← this]
  | succ g ih =>
    rcases Nat.lt_or_ge f (g + 1) with hlt | hge
    · exact pagerank_loop_step_mono (ih (Nat.lt_succ_iff.mp hlt))
    · have : f = g + 1 := Nat.le_antisymm hfg hge
      rwa [← this]

theorem iterate_pagerank_inv {corpus : Corpus} {d : ℚ} {f : ℕ}
    {r : List (Page × ℚ)} (h : iterate_pagerank corpus d f = some r) :
    corpus.length ≠ 0 ∧
    ∃ x, pagerank_loop corpus d (inbound_links corpus) f
          (corpus.map fun kv => (kv.1, 1 / (corpus.length : ℚ))) = some x ∧
        normalize x = some r := by
  unfold iterate_pagerank at h
  by_cases hc : corpus.length = 0
  · rw [if_pos hc] at h; exact absurd h (by simp)
  · rw [if_neg hc] at h
    dsimp only at h
    refine ⟨hc, ?_⟩
    cases hm : pagerank_loop corpus d (inbound_links corpus) f
        (corpus.map fun kv => (kv.1, 1 / (corpus.length : ℚ))) with
    | none => rw [hm] at h; exact absurd h (by simp)
    | some x => rw [hm] at h; exact ⟨x, rfl, h⟩

/-- **C9** (confirmed): determinism as a two-run property.  Any two
terminating runs of `iterate_pagerank` on the same corpus and damping
factor (for any fuel bounds) return identical results, and two runs of
`sample_pagerank` on the same corpus, damping factor, sample count and
identically-seeded random source (same draw stream and same start index)
return identical results. -/
theorem C9_determinism (corpus : Corpus) (d : ℚ) (f₁ f₂ : ℕ)
    (r₁ r₂ : List (Page × ℚ)) (n : ℕ) (us₁ us₂ : ℕ → ℚ) (idx : ℕ)
    (h₁ : iterate_pagerank corpus d f₁ = some r₁)
    (h₂ : iterate_pagerank corpus d f₂ = some r₂)
    (hus : ∀ i, us₁ i = us₂ i) :
    r₁ = r₂ ∧
    sample_pagerank corpus d n us₁ idx = sample_pagerank corpus d n us₂ idx := by
  constructor
  · obtain ⟨-, x₁, hl₁, hn₁⟩ := iterate_pagerank_inv h₁
    obtain ⟨-, x₂, hl₂, hn₂⟩ := iterate_pagerank_inv h₂
    rcases Nat.le_total f₁ f₂ with hf | hf
    · have := pagerank_loop_mono hf hl₁
      rw [this] at hl₂
      have hx : x₁ = x₂ := Option.some_inj.mp hl₂
      rw [hx, hn₂] at hn₁
      exact (Option.some_inj.mp hn₁).symm
    · have := pagerank_loop_mono hf hl₂
      rw [this] at hl₁
      have hx : x₂ = x₁ := Option.some_inj.mp hl₁
      rw [hx, hn₁] at hn₂
      exact Option.some_inj.mp hn₂
  · have : us₁ = us₂ := funext hus
    rw [this]

/-! ## Sampling lemmas -/

theorem mem_of_lookupD {β : Type} {a : Page} {b : β} {l : List (Page × β)}
    (h : lookupD a l = some b) : (a, b) ∈ l := by
  induction l with
  | nil => simp [lookupD] at h
  | cons kv rest ih =>
    obtain ⟨k, v⟩ := kv
    by_cases hk : k = a
    · subst hk
      rw [lookupD_cons, if_pos rfl] at h
      exact (Option.some_inj.mp h) ▸ List.mem_cons_self _ _
    · rw [lookupD_cons, if_neg hk] at h
      exact List.mem_cons_of_mem _ (ih h)

theorem lookupD_isSome {β : Type} {a : Page} {l : List (Page × β)}
    (h : a ∈ keysOf l) : ∃ b, lookupD a l = some b := by
  cases hl : lookupD a l with
  | none => exact absurd (lookupD_eq_none.mp hl) (not_not_intro h)
  | some b => exact ⟨b, rfl⟩

theorem select_scan_mem {l : List (Page × ℚ)} {u : ℚ} {k : Page}
    (h : select_scan u l = some k) : k ∈ keysOf l := by
  induction l generalizing u with
  | nil => simp [select_scan] at h
  | cons kv rest ih =>
    obtain ⟨a, p⟩ := kv
    rw [show select_scan u ((a, p) :: rest)
        = if u - p ≤ 0 then some a else select_scan (u - p) rest from rfl] at h
    by_cases hc : u - p ≤ 0
    · rw [if_pos hc] at h
      exact (Option.some_inj.mp h) ▸ List.mem_cons_self _ _
    · rw [if_neg hc] at h
      exact List.mem_cons_of_mem _ (ih h)

theorem select_scan_isSome {l : List (Page × ℚ)} (hne : l ≠ []) {u : ℚ}
    (hu : u ≤ vsum l) : ∃ k, select_scan u l = some k := by
  induction l generalizing u with
  | nil => exact absurd rfl hne
  | cons kv rest ih =>
    obtain ⟨a, p⟩ := kv
    rw [show select_scan u ((a, p) :: rest)
        = if u - p ≤ 0 then some a else select_scan (u - p) rest from rfl]
    by_cases hc : u - p ≤ 0
    · exact ⟨a, if_pos hc⟩
    · rw [if_neg hc]
      cases hrest : rest with
      | nil =>
        exfalso
        rw [hrest] at hu
        rw [vsum_cons] at hu
        simp [vsum] at hu
        exact hc (by linarith)
      | cons b tail =>
        rw [← hrest]
        refine ih (by rw [hrest]; exact List.cons_ne_nil _ _) ?_
        rw [vsum_cons] at hu
        linarith

theorem keysOf_incr (k : Page) (l : List (Page × ℚ)) :
    keysOf (incr k l) = keysOf l := by
  induction l with
  | nil => rfl
  | cons kv rest ih =>
    obtain ⟨a, v⟩ := kv
    by_cases h : a = k <;> simp [incr, h, keysOf] at * <;> exact ih

theorem vsum_incr {k : Page} {l : List (Page × ℚ)} (hk : k ∈ keysOf l) :
    vsum (incr k l) = vsum l + 1 := by
  induction l with
  | nil => simp [keysOf] at hk
  | cons kv rest ih =>
    obtain ⟨a, v⟩ := kv
    by_cases h : a = k
    · subst h
      rw [show incr a ((a, v) :: rest) = (a, v + 1) :: rest by simp [incr]]
      rw [vsum_cons, vsum_cons]
      ring
    · have hk' : k ∈ keysOf rest := by
        rcases List.mem_cons.mp hk with h1 | h1
        · exact absurd h1.symm h
        · exact h1
      rw [show incr k ((a, v) :: rest) = (a, v) :: incr k rest by simp [incr, h]]
      rw [vsum_cons, vsum_cons, ih hk']
      ring

theorem sample_loop_zero (corpus : Corpus) (d : ℚ) (us : ℕ → ℚ) (i : ℕ)
    (page : Page) (samples : List (Page × ℚ)) :
    sample_loop corpus d us 0 i page samples = some (page, samples) := rfl

theorem sample_loop_succ (corpus : Corpus) (d : ℚ) (us : ℕ → ℚ) (m i : ℕ)
    (page : Page) (samples : List (Page × ℚ)) :
    sample_loop corpus d us (m + 1) i page samples
      = match transition_model corpus page d with
        | none => none
        | some result =>
          match select_scan (us i) result with
          | none => sample_loop corpus d us m (i + 1) page samples
          | some key => sample_loop corpus d us m (i + 1) key (incr key samples) := rfl

/-- The sampling loop over a corpus in which every page has at least one
outbound link (all targets corpus keys, duplicate-free) and every draw lies
in `[0,1)`: it always succeeds, every iteration selects a page and adds
exactly `1` to the counters, so the final counts total the initial total
plus the number of iterations. -/
theorem sample_loop_total (corpus : Corpus) (d : ℚ) (us : ℕ → ℚ)
    (hK : (keysOf corpus).Nodup)
    (hlinks : ∀ kv ∈ corpus, kv.2 ≠ [] ∧ kv.2.Nodup ∧ ∀ x ∈ kv.2, x ∈ keysOf corpus)
    (hus : ∀ i, 0 ≤ us i ∧ us i < 1) :
    ∀ (m i : ℕ) (page : Page) (samples : List (Page × ℚ)),
      page ∈ keysOf corpus → keysOf samples = keysOf corpus →
      ∃ pg fin, sample_loop corpus d us m i page samples = some (pg, fin) ∧
        pg ∈ keysOf corpus ∧ keysOf fin = keysOf corpus ∧
        vsum fin = vsum samples + m := by
  intro m
  induction m with
  | zero =>
    intro i page samples hpage hsk
    exact ⟨page, samples, rfl, hpage, hsk, by simp⟩
  | succ m ih =>
    intro i page samples hpage hsk
    obtain ⟨pages, hp⟩ := lookupD_isSome hpage
    obtain ⟨hne', hnd', hsub'⟩ := hlinks (page, pages) (mem_of_lookupD hp)
    have ht := transition_model_eq d hp
    have hv : vsum ((transition_model corpus page d).getD [])
        = if pages = [] then 1 - d else 1 := vsum_transition d hp hK hnd' hsub'
    rw [ht, Option.getD_some, if_neg hne'] at hv
    have hcne : corpus ≠ [] := by
      intro hc
      subst hc
      simp [keysOf] at hpage
    have htne : (corpus.map fun kv =>
        (kv.1, (1 - d) / (corpus.length : ℚ) +
          if kv.1 ∈ pages then
            (if 0 < pages.length then d / (pages.length : ℚ) else 0)
          else 0)) ≠ [] := by
      simpa using hcne
    obtain ⟨key, hsel⟩ := select_scan_isSome htne
      (le_of_lt (lt_of_lt_of_le (hus i).2 (le_of_eq hv.symm)))
    have hkk : keysOf (corpus.map fun kv =>
        (kv.1, (1 - d) / (corpus.length : ℚ) +
          if kv.1 ∈ pages then
            (if 0 < pages.length then d / (pages.length : ℚ) else 0)
          else 0)) = keysOf corpus := by
      simp [keysOf, List.map_map]
    have hkey : key ∈ keysOf corpus := by
      have := select_scan_mem hsel
      rwa [hkk] at this
    obtain ⟨pg, fin, hloop, hpg, hfk, hfv⟩ :=
      ih (i + 1) key (incr key samples) hkey
        (by rw [keysOf_incr]; exact hsk)
    refine ⟨pg, fin, ?_, hpg, hfk, ?_⟩
    · rw [sample_loop_succ, ht]
      dsimp only
      rw [hsel]
      exact hloop
    · rw [hfv, vsum_incr (by rw [hsk]; exact hkey)]
      push_cast
      ring

theorem keysOf_init_samples (corpus : Corpus) :
    keysOf ((keysOf corpus).map fun p => (p, (0 : ℚ))) = keysOf corpus := by
  simp [keysOf, List.map_map]

theorem vsum_init_samples (corpus : Corpus) :
    vsum ((keysOf corpus).map fun p => (p, (0 : ℚ))) = 0 := by
  induction corpus with
  | nil => rfl
  | cons kv rest ih =>
    rw [show keysOf (kv :: rest) = kv.1 :: keysOf rest from rfl, List.map_cons,
      vsum_cons, ih]
    simp

/-- Unfolding `sample_pagerank` through a successful start-page pick and
sampling loop: the result is `normalize` of the final counters. -/
theorem sample_pagerank_unfold {corpus : Corpus} {d : ℚ} {n : ℕ} {us : ℕ → ℚ}
    {idx : ℕ} {page pg : Page} {fin : List (Page × ℚ)}
    (hidx : (keysOf corpus).get? idx = some page)
    (hloop : sample_loop corpus d us n 0 page
        ((keysOf corpus).map fun p => (p, (0 : ℚ))) = some (pg, fin)) :
    sample_pagerank corpus d n us idx = normalize fin := by
  unfold sample_pagerank
  dsimp only
  rw [hidx]
  dsimp only
  rw [hloop]

/-- Unfolding `iterate_pagerank` through a terminating loop: the result is
`normalize` of the final ranks. -/
theorem iterate_pagerank_unfold {corpus : Corpus} {d : ℚ} {fuel : ℕ}
    {x : List (Page × ℚ)} (hc : corpus.length ≠ 0)
    (hl : pagerank_loop corpus d (inbound_links corpus) fuel
        (corpus.map fun kv => (kv.1, 1 / (corpus.length : ℚ))) = some x) :
    iterate_pagerank corpus d fuel = normalize x := by
  unfold iterate_pagerank
  rw [if_neg hc]
  dsimp only
  rw [hl]

/-! ## Concrete evaluations on the one-page corpus `{A: {}}` -/

theorem pagerank_loop_single_eval (f : ℕ) :
    pagerank_loop [("A", [])] (17 / 20) [("A", [])] (f + 2) [("A", (1 : ℚ))]
      = some [("A", (3 / 20 : ℚ))] := by
  have hupd1 : ranks_update [("A", [])] (17 / 20) [("A", [])] [("A", (1 : ℚ))]
      = [("A", (3 / 20 : ℚ))] := by
    norm_num [ranks_update, candidate, lookupD, lt_abs, List.filterMap_cons,
      List.filterMap_nil]
  have hupd2 : ranks_update [("A", [])] (17 / 20) [("A", [])] [("A", (3 / 20 : ℚ))]
      = [] := by
    norm_num [ranks_update, candidate, lookupD, lt_abs, List.filterMap_cons,
      List.filterMap_nil]
  have happ : apply_updates [("A", (3 / 20 : ℚ))] [("A", (1 : ℚ))]
      = [("A", (3 / 20 : ℚ))] := by
    norm_num [apply_updates, setval]
  rw [show f + 2 = (f + 1) + 1 from rfl, pagerank_loop_succ, hupd1,
    if_neg (by simp), happ, pagerank_loop_succ, hupd2, if_pos rfl]

theorem iterate_single_eval (f : ℕ) :
    iterate_pagerank [("A", [])] (17 / 20) (f + 2) = some [("A", (100 : ℚ))] := by
  have hloop : pagerank_loop [("A", [])] (17 / 20) (inbound_links [("A", [])])
      (f + 2) (([("A", ([] : List Page))] : Corpus).map fun kv =>
        (kv.1, 1 / ((([("A", ([] : List Page))] : Corpus).length : ℚ))))
      = some [("A", (3 / 20 : ℚ))] := by
    rw [show inbound_links [("A", ([] : List Page))] = [("A", ([] : List Page))]
      from rfl]
    rw [show (([("A", ([] : List Page))] : Corpus).map fun kv =>
        (kv.1, 1 / ((([("A", ([] : List Page))] : Corpus).length : ℚ))))
        = [("A", (1 : ℚ))] from by norm_num]
    exact pagerank_loop_single_eval f
  rw [iterate_pagerank_unfold (by norm_num) hloop]
  norm_num [normalize, vsum]

theorem sample_single_eval :
    sample_pagerank [("A", [])] (17 / 20) 1 (fun _ => 0) 0
      = some [("A", (100 : ℚ))] := by
  norm_num [sample_pagerank, sample_loop, transition_model, select_scan, incr,
    lookupD, normalize, vsum, keysOf]

/-- **C4** (code bug): on the one-page corpus `{A: {}}` both estimators put
all the probability mass on `A`, but the returned distribution is
`{A: 100.0}` — the normalizer's percentage form — not the claimed
`{A: 1.0}`, contradicting the docstrings of both estimators ("a value
between 0 and 1. All PageRank values should sum to 1"). -/
theorem C4_single_page_eval :
    iterate_pagerank [("A", [])] (17 / 20) 2 = some [("A", (100 : ℚ))] ∧
    sample_pagerank [("A", [])] (17 / 20) 1 (fun _ => 0) 0
      = some [("A", (100 : ℚ))] ∧
    (100 : ℚ) ≠ 1 :=
  ⟨iterate_single_eval 0, sample_single_eval, by norm_num⟩

/-! ## C5: sampling-loop counters -/

/-- **C5** counterexample: on the corpus `{A: {}}` with damping `1/2` and
the in-range draw `9/10`, one iteration of the sampling loop selects no
page (the transition probabilities total only `1/2`), so after `n = 1`
iterations the visit counts still sum to `0`, not `1`. -/
theorem C5_counterexample :
    sample_loop [("A", [])] (1 / 2) (fun _ => 9 / 10) 1 0 "A" [("A", (0 : ℚ))]
      = some ("A", [("A", (0 : ℚ))]) ∧
    (0 : ℚ) ≤ 9 / 10 ∧ (9 / 10 : ℚ) < 1 ∧
    vsum [("A", (0 : ℚ))] = 0 ∧ (0 : ℚ) ≠ 1 := by
  refine ⟨?_, by norm_num, by norm_num, by norm_num [vsum], by norm_num⟩
  norm_num [sample_loop, transition_model, select_scan, lookupD]

/-- **C5** (amended): provided every page of the corpus has at least one
outbound link (each link list duplicate-free and inside the corpus key set)
and every draw lies in `[0,1)`, each iteration of the sampling loop selects
a page via the cumulative-probability scan, increments exactly that page's
counter and makes it the new current page, and after the loop the visit
counts sum to exactly `n`.  (Without the outbound-link proviso an iteration
can select no page, as the counterexample shows.) -/
theorem C5_sampling_counts (corpus : Corpus) (d : ℚ) (us : ℕ → ℚ)
    (n idx : ℕ) (page : Page)
    (hK : (keysOf corpus).Nodup)
    (hlinks : ∀ kv ∈ corpus, kv.2 ≠ [] ∧ kv.2.Nodup ∧ ∀ x ∈ kv.2, x ∈ keysOf corpus)
    (hus : ∀ i, 0 ≤ us i ∧ us i < 1)
    (hidx : (keysOf corpus).get? idx = some page)
    (hn : 1 ≤ n) :
    (∀ m i pg samples result key,
      transition_model corpus pg d = some result →
      select_scan (us i) result = some key →
      sample_loop corpus d us (m + 1) i pg samples
        = sample_loop corpus d us m (i + 1) key (incr key samples)) ∧
    ∃ pg fin, sample_loop corpus d us n 0 page
        ((keysOf corpus).map fun p => (p, (0 : ℚ))) = some (pg, fin) ∧
      keysOf fin = keysOf corpus ∧ vsum fin = n := by
  constructor
  · intro m i pg samples result key ht hs
    rw [sample_loop_succ, ht]
    dsimp only
    rw [hs]
  · have hpage : page ∈ keysOf corpus := List.get?_mem hidx
    obtain ⟨pg, fin, h1, h2, h3, h4⟩ :=
      sample_loop_total corpus d us hK hlinks hus n 0 page _ hpage
        (keysOf_init_samples corpus)
    refine ⟨pg, fin, h1, h3, ?_⟩
    rw [h4, vsum_init_samples, zero_add]

/-- Witness for `C5_sampling_counts` on a two-page corpus. -/
theorem C5_sampling_counts_witness :
    (keysOf ([("A", ["B"]), ("B", ["A"])] : Corpus)).Nodup ∧
    (∀ kv ∈ ([("A", ["B"]), ("B", ["A"])] : Corpus),
      kv.2 ≠ [] ∧ kv.2.Nodup ∧
        ∀ x ∈ kv.2, x ∈ keysOf ([("A", ["B"]), ("B", ["A"])] : Corpus)) ∧
    (∀ i : ℕ, (0 : ℚ) ≤ (fun _ : ℕ => (1 / 2 : ℚ)) i ∧
      (fun _ : ℕ => (1 / 2 : ℚ)) i < 1) ∧
    (keysOf ([("A", ["B"]), ("B", ["A"])] : Corpus)).get? 0 = some "A" ∧
    1 ≤ 3 ∧
    (∃ pg fin, sample_loop [("A", ["B"]), ("B", ["A"])] (17 / 20)
        (fun _ => (1 / 2 : ℚ)) 3 0 "A"
        ((keysOf ([("A", ["B"]), ("B", ["A"])] : Corpus)).map fun p => (p, (0 : ℚ)))
        = some (pg, fin) ∧
      keysOf fin = keysOf ([("A", ["B"]), ("B", ["A"])] : Corpus) ∧
      vsum fin = (3 : ℕ)) := by
  have hK : (keysOf ([("A", ["B"]), ("B", ["A"])] : Corpus)).Nodup := by decide
  have hlinks : ∀ kv ∈ ([("A", ["B"]), ("B", ["A"])] : Corpus),
      kv.2 ≠ [] ∧ kv.2.Nodup ∧
        ∀ x ∈ kv.2, x ∈ keysOf ([("A", ["B"]), ("B", ["A"])] : Corpus) := by decide
  have hus : ∀ i : ℕ, (0 : ℚ) ≤ (fun _ : ℕ => (1 / 2 : ℚ)) i ∧
      (fun _ : ℕ => (1 / 2 : ℚ)) i < 1 := fun i => by norm_num
  have hidx : (keysOf ([("A", ["B"]), ("B", ["A"])] : Corpus)).get? 0 = some "A" := rfl
  have hn : 1 ≤ 3 := by norm_num
  exact ⟨hK, hlinks, hus, hidx, hn,
    (C5_sampling_counts _ _ _ 3 0 "A" hK hlinks hus hidx hn).2⟩

/-- Witness for `C9_determinism`: two terminating fuel bounds for the
iterative solver on `{A: {}}` and two identical random sources for the
sampler. -/
theorem C9_determinism_witness :
    iterate_pagerank [("A", [])] (17 / 20) 2 = some [("A", (100 : ℚ))] ∧
    iterate_pagerank [("A", [])] (17 / 20) 3 = some [("A", (100 : ℚ))] ∧
    ([("A", (100 : ℚ))] = [("A", (100 : ℚ))] ∧
      sample_pagerank [("A", [])] (17 / 20) 5 (fun _ => 0) 0
        = sample_pagerank [("A", [])] (17 / 20) 5 (fun _ => 0) 0) := by
  have h2 : iterate_pagerank [("A", [])] (17 / 20) 2 = some [("A", (100 : ℚ))] :=
    iterate_single_eval 0
  have h3 : iterate_pagerank [("A", [])] (17 / 20) 3 = some [("A", (100 : ℚ))] :=
    iterate_single_eval 1
  exact ⟨h2, h3,
    C9_determinism [("A", [])] (17 / 20) 2 3 _ _ 5 (fun _ => 0) (fun _ => 0) 0
      h2 h3 (fun _ => rfl)⟩

/-! ## C6: positivity of the weights reaching `normalize` -/

/-- All values of an association list are strictly positive. -/
def AllPos (l : List (Page × ℚ)) : Prop := ∀ kv ∈ l, 0 < kv.2

theorem vsum_nonneg {l : List (Page × ℚ)} (h : AllPos l) : 0 ≤ vsum l := by
  induction l with
  | nil => simp [vsum]
  | cons kv rest ih =>
    rw [vsum_cons]
    have h1 := h kv (List.mem_cons_self _ _)
    have h2 := ih fun x hx => h x (List.mem_cons_of_mem _ hx)
    linarith

theorem vsum_pos {l : List (Page × ℚ)} (hne : l ≠ []) (h : AllPos l) :
    0 < vsum l := by
  cases l with
  | nil => exact absurd rfl hne
  | cons kv rest =>
    rw [vsum_cons]
    have h1 := h kv (List.mem_cons_self _ _)
    have h2 := vsum_nonneg fun x hx => h x (List.mem_cons_of_mem _ hx)
    linarith

theorem candidate_pos {corpus : Corpus} {d : ℚ} {ranks : List (Page × ℚ)}
    (hd0 : 0 ≤ d) (hd1 : d < 1) (hcne : corpus ≠ [])
    (hranks : AllPos ranks) (inb : List Page) :
    0 < candidate corpus d ranks inb := by
  unfold candidate
  have hN : (0 : ℚ) < corpus.length :=
    Nat.cast_pos.mpr (List.length_pos.mpr hcne)
  have hk : 0 < (1 - d) / (corpus.length : ℚ) := div_pos (by linarith) hN
  have hsum : 0 ≤ (inb.map fun q =>
      (lookupD q ranks).getD 0 / (((lookupD q corpus).getD []).length : ℚ)).sum := by
    apply List.sum_nonneg
    intro x hx
    rcases List.mem_map.mp hx with ⟨q, hq, rfl⟩
    apply div_nonneg
    · cases hl : lookupD q ranks with
      | none => simp
      | some v =>
        simp only [Option.getD_some]
        exact le_of_lt (hranks (q, v) (mem_of_lookupD hl))
    · positivity
  have hmul : 0 ≤ d * (inb.map fun q =>
      (lookupD q ranks).getD 0 / (((lookupD q corpus).getD []).length : ℚ)).sum :=
    mul_nonneg hd0 hsum
  linarith

theorem ranks_update_allpos {corpus : Corpus} {d : ℚ}
    {inb : List (Page × List Page)} {ranks : List (Page × ℚ)}
    (hd0 : 0 ≤ d) (hd1 : d < 1) (hcne : corpus ≠ []) (hranks : AllPos ranks) :
    AllPos (ranks_update corpus d inb ranks) := by
  intro kv hkv
  unfold ranks_update at hkv
  rcases List.mem_filterMap.mp hkv with ⟨a, _, hfa⟩
  dsimp only at hfa
  by_cases hc : |(lookupD a.1 ranks).getD 0 -
      candidate corpus d ranks ((lookupD a.1 inb).getD [])| > 1 / 1000
  · rw [if_pos hc] at hfa
    rw [← Option.some_inj.mp hfa]
    exact candidate_pos hd0 hd1 hcne hranks _
  · rw [if_neg hc] at hfa
    exact absurd hfa (by simp)

theorem setval_allpos {r : List (Page × ℚ)} {k : Page} {v : ℚ}
    (h : AllPos r) (hv : 0 < v) : AllPos (setval k v r) := by
  induction r with
  | nil => intro kv hkv; simp [setval] at hkv
  | cons hd rest ih =>
    obtain ⟨a, w⟩ := hd
    intro kv hkv
    by_cases ha : a = k
    · rw [show setval k v ((a, w) :: rest) = (a, v) :: rest by simp [setval, ha]] at hkv
      rcases List.mem_cons.mp hkv with h1 | h1
      · rw [h1]; exact hv
      · exact h kv (List.mem_cons_of_mem _ h1)
    · rw [show setval k v ((a, w) :: rest) = (a, w) :: setval k v rest
        by simp [setval, ha]] at hkv
      rcases List.mem_cons.mp hkv with h1 | h1
      · rw [h1]; exact h (a, w) (List.mem_cons_self _ _)
      · exact ih (fun x hx => h x (List.mem_cons_of_mem _ hx)) kv h1

theorem apply_updates_allpos {upd r : List (Page × ℚ)}
    (hupd : AllPos upd) (h : AllPos r) : AllPos (apply_updates upd r) := by
  induction upd generalizing r with
  | nil => exact h
  | cons kv rest ih =>
    rw [show apply_updates (kv :: rest) r
        = apply_updates rest (setval kv.1 kv.2 r) from rfl]
    exact ih (fun x hx => hupd x (List.mem_cons_of_mem _ hx))
      (setval_allpos h (hupd kv (List.mem_cons_self _ _)))

theorem setval_length (k : Page) (v : ℚ) (r : List (Page × ℚ)) :
    (setval k v r).length = r.length := by
  induction r with
  | nil => rfl
  | cons hd rest ih =>
    obtain ⟨a, w⟩ := hd
    by_cases ha : a = k <;> simp [setval, ha, ih]

theorem apply_updates_length (upd r : List (Page × ℚ)) :
    (apply_updates upd r).length = r.length := by
  induction upd generalizing r with
  | nil => rfl
  | cons kv rest ih =>
    rw [show apply_updates (kv :: rest) r
        = apply_updates rest (setval kv.1 kv.2 r) from rfl, ih, setval_length]

theorem pagerank_loop_allpos {corpus : Corpus} {d : ℚ}
    {inb : List (Page × List Page)}
    (hd0 : 0 ≤ d) (hd1 : d < 1) (hcne : corpus ≠ []) :
    ∀ (f : ℕ) (ranks out : List (Page × ℚ)), AllPos ranks →
      pagerank_loop corpus d inb f ranks = some out →
      AllPos out ∧ out.length = ranks.length := by
  intro f
  induction f with
  | zero =>
    intro ranks out _ h
    rw [pagerank_loop_zero] at h
    exact absurd h (by simp)
  | succ f ih =>
    intro ranks out hpos h
    rw [pagerank_loop_succ] at h
    by_cases hu : ranks_update corpus d inb ranks = []
    · rw [if_pos hu] at h
      rw [← Option.some_inj.mp h]
      exact ⟨hpos, rfl⟩
    · rw [if_neg hu] at h
      have hupd : AllPos (ranks_update corpus d inb ranks) :=
        ranks_update_allpos hd0 hd1 hcne hpos
      obtain ⟨h1, h2⟩ := ih _ out (apply_updates_allpos hupd hpos) h
      exact ⟨h1, by rw [h2, apply_updates_length]⟩

/-- **C6** (amended): `normalize` fails exactly when the total weight is
zero and the mapping is non-empty (on the empty mapping the dividing loop
never runs and the empty mapping is returned); the weights
`iterate_pagerank` passes to it are always positive in total (for a
damping factor in `[0,1)` and a terminating loop), so that call cannot
fail; the counters `sample_pagerank` passes to it total `n > 0` — hence
cannot be all zero — provided every corpus page has at least one outbound
link inside the corpus (otherwise the zero-total case can occur, as the
counterexample shows). -/
theorem C6_zero_total (w : List (Page × ℚ)) (corpus : Corpus) (d : ℚ)
    (fuel n idx : ℕ) (us : ℕ → ℚ) (page : Page) :
    (normalize w = none ↔ vsum w = 0 ∧ w ≠ []) ∧
    (0 ≤ d → d < 1 → corpus ≠ [] →
      ∀ x, pagerank_loop corpus d (inbound_links corpus) fuel
          (corpus.map fun kv => (kv.1, 1 / (corpus.length : ℚ))) = some x →
        ∃ out, iterate_pagerank corpus d fuel = some out) ∧
    ((keysOf corpus).Nodup →
      (∀ kv ∈ corpus, kv.2 ≠ [] ∧ kv.2.Nodup ∧ ∀ x ∈ kv.2, x ∈ keysOf corpus) →
      (∀ i, 0 ≤ us i ∧ us i < 1) →
      (keysOf corpus).get? idx = some page → 1 ≤ n →
      ∃ out, sample_pagerank corpus d n us idx = some out) := by
  refine ⟨?_, ?_, ?_⟩
  · dsimp only [normalize]
    by_cases h : vsum w = 0 ∧ w ≠ []
    · rw [if_pos h]
      simp [h]
    · rw [if_neg h]
      simp [h]
  · intro hd0 hd1 hcne x hx
    have hinit : AllPos (corpus.map fun kv => (kv.1, 1 / (corpus.length : ℚ))) := by
      intro kv hkv
      rcases List.mem_map.mp hkv with ⟨a, _, rfl⟩
      have hN : (0 : ℚ) < corpus.length :=
        Nat.cast_pos.mpr (List.length_pos.mpr hcne)
      positivity
    obtain ⟨hpos, hlen⟩ := pagerank_loop_allpos hd0 hd1 hcne fuel _ x hinit hx
    have hxne : x ≠ [] := by
      intro hnil
      rw [hnil] at hlen
      have : corpus.length = 0 := by simpa using hlen.symm
      exact hcne (List.length_eq_zero.mp this)
    have hv : vsum x ≠ 0 := ne_of_gt (vsum_pos hxne hpos)
    refine ⟨x.map fun kv => (kv.1, kv.2 / vsum x * 100), ?_⟩
    rw [iterate_pagerank_unfold (fun h => hcne (List.length_eq_zero.mp h)) hx]
    simp [normalize, hv]
  · intro hK hlinks hus hidx hn
    have hpage : page ∈ keysOf corpus := List.get?_mem hidx
    obtain ⟨pg, fin, h1, _, _, h4⟩ :=
      sample_loop_total corpus d us hK hlinks hus n 0 page _ hpage
        (keysOf_init_samples corpus)
    rw [vsum_init_samples, zero_add] at h4
    have hv : vsum fin ≠ 0 := by
      rw [h4]
      have : (0 : ℚ) < n := by exact_mod_cast hn
      exact ne_of_gt this
    refine ⟨fin.map fun kv => (kv.1, kv.2 / vsum fin * 100), ?_⟩
    rw [sample_pagerank_unfold hidx h1]
    simp [normalize, hv]

/-- **C6** counterexample: the zero-total case does occur for a weight
mapping `sample_pagerank` passes to `normalize` even though every weight is
non-negative, the corpus is non-empty and the damping factor is positive —
on `{A: {}}` with damping `1/2` and draw `9/10` the counters stay all zero
and the call fails. -/
theorem C6_counterexample :
    sample_pagerank [("A", [])] (1 / 2) 1 (fun _ => 9 / 10) 0 = none ∧
    (0 : ℚ) < 1 / 2 ∧ ([("A", ([] : List Page))] : Corpus) ≠ [] := by
  refine ⟨?_, by norm_num, by simp⟩
  norm_num [sample_pagerank, sample_loop, transition_model, select_scan, incr,
    lookupD, normalize, vsum, keysOf]

/-- Witness for `C6_zero_total` at concrete inputs. -/
theorem C6_zero_total_witness :
    normalize [("A", (0 : ℚ))] = none ∧
    (∃ out, sample_pagerank [("A", ["B"]), ("B", ["A"])] (17 / 20) 3
      (fun _ => (1 / 2 : ℚ)) 0 = some out) := by
  have h := C6_zero_total [("A", (0 : ℚ))] [("A", ["B"]), ("B", ["A"])]
    (17 / 20) 2 3 0 (fun _ => (1 / 2 : ℚ)) "A"
  exact ⟨h.1.mpr ⟨by norm_num [vsum], by simp⟩,
    h.2.2 (by decide) (by decide) (fun i => by norm_num) rfl (by norm_num)⟩

/-! ## C3: the iterative solver's rounds -/

/-- The spec's update rule, written from its words: `rank(p) =
(1-dampingFactor)/N + dampingFactor * Σ over q in inbound(p) of
rank(q)/|links(q)|`, with `inbound(p)` read off the corpus directly as the
entries whose link set contains `p`.  To be compared with the code's
`candidate` applied to the built inbound index. -/
def spec_update_rule (corpus : Corpus) (d : ℚ) (ranks : List (Page × ℚ))
    (p : Page) : ℚ :=
  (1 - d) / (corpus.length : ℚ) +
    d * ((corpus.filter fun kv => decide (p ∈ kv.2)).map fun kv =>
      (lookupD kv.1 ranks).getD 0 / (kv.2.length : ℚ)).sum

theorem candidate_eq_spec {corpus : Corpus} (d : ℚ) (ranks : List (Page × ℚ))
    {p : Page} (hK : (keysOf corpus).Nodup) (hp : p ∈ keysOf corpus) :
    candidate corpus d ranks ((lookupD p (inbound_links corpus)).getD [])
      = spec_update_rule corpus d ranks p := by
  obtain ⟨inb, hinb⟩ := lookupD_isSome
    (show p ∈ keysOf (inbound_links corpus) by
      rw [keysOf_inbound_links]; exact hp)
  rw [hinb, Option.getD_some]
  have hnd1 : inb.Nodup := nodup_inbound_links hinb
  have hnd2 : ((corpus.filter fun kv => decide (p ∈ kv.2)).map Prod.fst).Nodup :=
    ((List.filter_sublist corpus).map Prod.fst).nodup hK
  have hmemiff : ∀ q, q ∈ inb ↔
      q ∈ (corpus.filter fun kv => decide (p ∈ kv.2)).map Prod.fst := by
    intro q
    rw [mem_inbound_links hinb q]
    constructor
    · rintro ⟨kv, hkv, h1, h2⟩
      have hf : kv ∈ corpus.filter (fun kv => decide (p ∈ kv.2)) :=
        List.mem_filter.mpr ⟨hkv, decide_eq_true h2⟩
      have := List.mem_map_of_mem Prod.fst hf
      rwa [h1] at this
    · intro hq
      rcases List.mem_map.mp hq with ⟨kv, hkv, rfl⟩
      obtain ⟨h1, h2⟩ := List.mem_filter.mp hkv
      exact ⟨kv, h1, rfl, of_decide_eq_true h2⟩
  have hperm : List.Perm inb
      ((corpus.filter fun kv => decide (p ∈ kv.2)).map Prod.fst) :=
    List.perm_of_nodup_nodup_toFinset_eq hnd1 hnd2 (by
      ext q
      simp only [List.mem_toFinset]
      exact hmemiff q)
  have hstep1 : ((corpus.filter fun kv => decide (p ∈ kv.2)).map fun kv =>
      (lookupD kv.1 ranks).getD 0 / (kv.2.length : ℚ))
      = ((corpus.filter fun kv => decide (p ∈ kv.2)).map fun kv =>
        (lookupD kv.1 ranks).getD 0 /
          (((lookupD kv.1 corpus).getD []).length : ℚ)) := by
    apply List.map_congr_left
    intro kv hkv
    have hmem : kv ∈ corpus := List.mem_of_mem_filter hkv
    rw [lookupD_of_mem hK hmem, Option.getD_some]
  have hstep2 : ((corpus.filter fun kv => decide (p ∈ kv.2)).map fun kv =>
      (lookupD kv.1 ranks).getD 0 /
        (((lookupD kv.1 corpus).getD []).length : ℚ))
      = (((corpus.filter fun kv => decide (p ∈ kv.2)).map Prod.fst).map fun q =>
        (lookupD q ranks).getD 0 /
          (((lookupD q corpus).getD []).length : ℚ)) := by
    rw [List.map_map]
    rfl
  unfold candidate spec_update_rule
  dsimp only
  rw [hstep1, hstep2,
    show ((inb.map fun q => (lookupD q ranks).getD 0 /
        (((lookupD q corpus).getD []).length : ℚ)).sum)
      = ((((corpus.filter fun kv => decide (p ∈ kv.2)).map Prod.fst).map fun q =>
          (lookupD q ranks).getD 0 /
            (((lookupD q corpus).getD []).length : ℚ)).sum)
      from (hperm.map _).sum_eq]

theorem keysOf_filterMap_subset (cond : Page → Prop) [DecidablePred cond]
    (g : Page → ℚ) (l : Corpus) :
    ∀ q, q ∈ keysOf (l.filterMap fun kv =>
        if cond kv.1 then some (kv.1, g kv.1) else none) →
      q ∈ keysOf l := by
  intro q hq
  unfold keysOf at hq ⊢
  rcases List.mem_map.mp hq with ⟨kv, hkv, rfl⟩
  rcases List.mem_filterMap.mp hkv with ⟨a, ha, hfa⟩
  by_cases hc : cond a.1
  · rw [if_pos hc] at hfa
    rw [← Option.some_inj.mp hfa]
    exact List.mem_map_of_mem Prod.fst ha
  · rw [if_neg hc] at hfa
    exact absurd hfa (by simp)

theorem lookupD_filterMap (cond : Page → Prop) [DecidablePred cond]
    (g : Page → ℚ) :
    ∀ {l : Corpus}, (keysOf l).Nodup → ∀ {p}, p ∈ keysOf l →
      lookupD p (l.filterMap fun kv =>
          if cond kv.1 then some (kv.1, g kv.1) else none)
        = if cond p then some (g p) else none := by
  intro l
  induction l with
  | nil =>
    intro _ p hp
    simp [keysOf] at hp
  | cons kv rest ih =>
    intro hnd p hp
    obtain ⟨k, v⟩ := kv
    have hnd0 : k ∉ keysOf rest ∧ (keysOf rest).Nodup := by
      simpa [keysOf] using hnd
    rw [List.filterMap_cons]
    dsimp only
    by_cases hpk : k = p
    · subst hpk
      by_cases hc : cond k
      · rw [if_pos hc]
        dsimp only
        rw [lookupD_cons, if_pos rfl, if_pos hc]
      · rw [if_neg hc]
        dsimp only
        rw [if_neg hc, lookupD_eq_none]
        intro hmem
        exact hnd0.1 (keysOf_filterMap_subset cond g rest k hmem)
    · have hp' : p ∈ keysOf rest := by
        rcases List.mem_cons.mp hp with h1 | h1
        · exact absurd h1.symm hpk
        · exact h1
      by_cases hc : cond k
      · rw [if_pos hc]
        dsimp only
        rw [lookupD_cons, if_neg hpk]
        exact ih hnd0.2 hp'
      · rw [if_neg hc]
        dsimp only
        exact ih hnd0.2 hp'

theorem ranks_update_lookup {corpus : Corpus} {d : ℚ}
    {inb : List (Page × List Page)} {ranks : List (Page × ℚ)}
    (hK : (keysOf corpus).Nodup) {p : Page} (hp : p ∈ keysOf corpus) :
    lookupD p (ranks_update corpus d inb ranks)
      = if |(lookupD p ranks).getD 0 -
            candidate corpus d ranks ((lookupD p inb).getD [])| > 1 / 1000
        then some (candidate corpus d ranks ((lookupD p inb).getD []))
        else none :=
  lookupD_filterMap
    (fun k => |(lookupD k ranks).getD 0 -
      candidate corpus d ranks ((lookupD k inb).getD [])| > 1 / 1000)
    (fun k => candidate corpus d ranks ((lookupD k inb).getD [])) hK hp

theorem pagerank_loop_no_update {corpus : Corpus} {d : ℚ}
    {inb : List (Page × List Page)} :
    ∀ {f : ℕ} {r out : List (Page × ℚ)},
      pagerank_loop corpus d inb f r = some out →
      ranks_update corpus d inb out = [] := by
  intro f
  induction f with
  | zero =>
    intro r out h
    rw [pagerank_loop_zero] at h
    exact absurd h (by simp)
  | succ f ih =>
    intro r out h
    rw [pagerank_loop_succ] at h
    by_cases hu : ranks_update corpus d inb r = []
    · rw [if_pos hu] at h
      rw [← Option.some_inj.mp h]
      exact hu
    · rw [if_neg hu] at h
      exact ih h

/-- **C3** (confirmed): `iterate_pagerank` starts every page at `1/N`; each
round's candidate for a page `p` equals the spec's update rule
`(1-d)/N + d * Σ over q in inbound(p) of rank(q)/|links(q)|`, computed only
from the previous round's ranks; a page's update is committed exactly when
the absolute change exceeds `0.001`; and the loop stops exactly when a
round commits no update. -/
theorem C3_iterative_solver (corpus : Corpus) (d : ℚ)
    (hne : corpus ≠ []) (hK : (keysOf corpus).Nodup)
    (hd0 : 0 ≤ d) (hd1 : d < 1) :
    (∀ p ∈ keysOf corpus,
      lookupD p (corpus.map fun kv => (kv.1, 1 / (corpus.length : ℚ)))
        = some (1 / (corpus.length : ℚ))) ∧
    (∀ ranks p, p ∈ keysOf corpus →
      candidate corpus d ranks ((lookupD p (inbound_links corpus)).getD [])
        = spec_update_rule corpus d ranks p) ∧
    (∀ ranks p, p ∈ keysOf corpus →
      lookupD p (ranks_update corpus d (inbound_links corpus) ranks)
        = if |(lookupD p ranks).getD 0 - spec_update_rule corpus d ranks p|
              > 1 / 1000
          then some (spec_update_rule corpus d ranks p) else none) ∧
    (∀ (f : ℕ) (r out : List (Page × ℚ)),
      pagerank_loop corpus d (inbound_links corpus) f r = some out →
      ranks_update corpus d (inbound_links corpus) out = []) ∧
    (∀ (f : ℕ) (r : List (Page × ℚ)),
      ranks_update corpus d (inbound_links corpus) r = [] →
      pagerank_loop corpus d (inbound_links corpus) (f + 1) r = some r) ∧
    (∀ (f : ℕ) (r : List (Page × ℚ)),
      ranks_update corpus d (inbound_links corpus) r ≠ [] →
      pagerank_loop corpus d (inbound_links corpus) (f + 1) r
        = pagerank_loop corpus d (inbound_links corpus) f
            (apply_updates (ranks_update corpus d (inbound_links corpus) r) r)) := by
  refine ⟨?_, ?_, ?_, ?_, ?_, ?_⟩
  · intro p hp
    exact lookupD_map_fn (fun _ => 1 / (corpus.length : ℚ)) hp
  · intro ranks p hp
    exact candidate_eq_spec d ranks hK hp
  · intro ranks p hp
    rw [ranks_update_lookup hK hp, candidate_eq_spec d ranks hK hp]
  · intro f r out h
    exact pagerank_loop_no_update h
  · intro f r h
    rw [pagerank_loop_succ, if_pos h]
  · intro f r h
    rw [pagerank_loop_succ, if_neg h]

/-- Witness for `C3_iterative_solver` on a concrete two-page corpus. -/
theorem C3_iterative_solver_witness :
    ([("A", ["B"]), ("B", ["A"])] : Corpus) ≠ [] ∧
    (keysOf ([("A", ["B"]), ("B", ["A"])] : Corpus)).Nodup ∧
    (0 : ℚ) ≤ 17 / 20 ∧ (17 / 20 : ℚ) < 1 ∧
    ((∀ p ∈ keysOf ([("A", ["B"]), ("B", ["A"])] : Corpus),
      lookupD p (([("A", ["B"]), ("B", ["A"])] : Corpus).map fun kv =>
          (kv.1, 1 / ((([("A", ["B"]), ("B", ["A"])] : Corpus).length : ℚ))))
        = some (1 / ((([("A", ["B"]), ("B", ["A"])] : Corpus).length : ℚ)))) ∧
    (∀ ranks p, p ∈ keysOf ([("A", ["B"]), ("B", ["A"])] : Corpus) →
      candidate [("A", ["B"]), ("B", ["A"])] (17 / 20) ranks
          ((lookupD p (inbound_links [("A", ["B"]), ("B", ["A"])])).getD [])
        = spec_update_rule [("A", ["B"]), ("B", ["A"])] (17 / 20) ranks p) ∧
    (∀ ranks p, p ∈ keysOf ([("A", ["B"]), ("B", ["A"])] : Corpus) →
      lookupD p (ranks_update [("A", ["B"]), ("B", ["A"])] (17 / 20)
          (inbound_links [("A", ["B"]), ("B", ["A"])]) ranks)
        = if |(lookupD p ranks).getD 0 -
              spec_update_rule [("A", ["B"]), ("B", ["A"])] (17 / 20) ranks p|
                > 1 / 1000
          then some (spec_update_rule [("A", ["B"]), ("B", ["A"])] (17 / 20) ranks p)
          else none) ∧
    (∀ (f : ℕ) (r out : List (Page × ℚ)),
      pagerank_loop [("A", ["B"]), ("B", ["A"])] (17 / 20)
          (inbound_links [("A", ["B"]), ("B", ["A"])]) f r = some out →
      ranks_update [("A", ["B"]), ("B", ["A"])] (17 / 20)
        (inbound_links [("A", ["B"]), ("B", ["A"])]) out = []) ∧
    (∀ (f : ℕ) (r : List (Page × ℚ)),
      ranks_update [("A", ["B"]), ("B", ["A"])] (17 / 20)
          (inbound_links [("A", ["B"]), ("B", ["A"])]) r = [] →
      pagerank_loop [("A", ["B"]), ("B", ["A"])] (17 / 20)
        (inbound_links [("A", ["B"]), ("B", ["A"])]) (f + 1) r = some r) ∧
    (∀ (f : ℕ) (r : List (Page × ℚ)),
      ranks_update [("A", ["B"]), ("B", ["A"])] (17 / 20)
          (inbound_links [("A", ["B"]), ("B", ["A"])]) r ≠ [] →
      pagerank_loop [("A", ["B"]), ("B", ["A"])] (17 / 20)
          (inbound_links [("A", ["B"]), ("B", ["A"])]) (f + 1) r
        = pagerank_loop [("A", ["B"]), ("B", ["A"])] (17 / 20)
            (inbound_links [("A", ["B"]), ("B", ["A"])]) f
            (apply_updates (ranks_update [("A", ["B"]), ("B", ["A"])] (17 / 20)
              (inbound_links [("A", ["B"]), ("B", ["A"])]) r) r))) := by
  have hne : ([("A", ["B"]), ("B", ["A"])] : Corpus) ≠ [] := by simp
  have hK : (keysOf ([("A", ["B"]), ("B", ["A"])] : Corpus)).Nodup := by decide
  have hd0 : (0 : ℚ) ≤ 17 / 20 := by norm_num
  have hd1 : (17 / 20 : ℚ) < 1 := by norm_num
  exact ⟨hne, hK, hd0, hd1,
    C3_iterative_solver [("A", ["B"]), ("B", ["A"])] (17 / 20) hne hK hd0 hd1⟩

end PageRank
